import Mathlib

/-!
Verification of the tpx3Histogram streaming client (src/tpx3_histogram.cpp).

The development shallow-embeds the frame-decoding and accumulation engine:
machine integers are modeled as `Nat` with explicit `% 2 ^ w` where overflow
matters, `double` values are modeled as exact rationals, the socket is modeled
as a list of receive events, and the persisted file is modeled as the `String`
the program writes.
-/

namespace Tpx3

/-! ## Constants (tpx3_histogram.cpp lines 33-37) -/

/-- `constexpr double TPX3_TDC_CLOCK_PERIOD_SEC = (1.5625 / 6.0) * 1e-9;`
modeled as an exact rational (1.5625 = 25/16 exactly). -/
def TPX3_TDC_CLOCK_PERIOD_SEC : ℚ := (1.5625 / 6) * (1 / 10 ^ 9)

/-- Modulus of 64-bit unsigned arithmetic. -/
def U64 : ℕ := 2 ^ 64

/-- `UINT64_MAX`, the saturation value used by `add_histogram`. -/
def UINT64_MAX : ℕ := 2 ^ 64 - 1

/-- Conversion of a C `int` value to `size_t` (two's-complement wrap mod 2^64),
as happens in `bin_offset + (i * bin_width)` inside `calculate_bin_edges`. -/
def sizeT (z : ℤ) : ℕ := (z % (2 : ℤ) ^ 64).toNat

/-! ## HistogramData (tpx3_histogram.cpp lines 47-201)

The C++ class stores either 32-bit frame values or 64-bit running-sum values,
selected by `data_type_`.  The embedding splits the two data types into two
structures; the dynamic `data_type_` checks of the C++ accessors become static
typing.  Vector contents are `Nat` with the width bounds carried as
well-formedness predicates (`FrameWF`, `SumWF`). -/

/-- A `HistogramData` with `DataType::FRAME_DATA` (32-bit values). -/
structure FrameHist where
  binSize : ℕ
  binEdges : List ℚ
  binValues32 : List ℕ
deriving DecidableEq, Repr

/-- A `HistogramData` with `DataType::RUNNING_SUM` (64-bit values). -/
structure SumHist where
  binSize : ℕ
  binEdges : List ℚ
  binValues64 : List ℕ
deriving DecidableEq, Repr

/-- Class invariant of a frame histogram, established by the constructor and
`set_bin_value_32`: `bin_edges_.size() == bin_size_ + 1`,
`bin_values_32_.size() == bin_size_`, values are `uint32_t`. -/
def FrameWF (f : FrameHist) : Prop :=
  f.binEdges.length = f.binSize + 1 ∧ f.binValues32.length = f.binSize ∧
    ∀ v ∈ f.binValues32, v < 2 ^ 32

/-- Class invariant of a running-sum histogram: `bin_edges_.size() == bin_size_ + 1`,
`bin_values_64_.size() == bin_size_`, values are `uint64_t`. -/
def SumWF (s : SumHist) : Prop :=
  s.binEdges.length = s.binSize + 1 ∧ s.binValues64.length = s.binSize ∧
    ∀ v ∈ s.binValues64, v < 2 ^ 64

/-- One step of the loop body of `add_histogram` (lines 183-192):
`uint64_t new_value = bin_values_64_[i] + other.bin_values_32_[i];` computes
mod 2^64; `if (new_value < bin_values_64_[i])` detects the wrap and caps the
bin at `UINT64_MAX`. -/
def satAdd64 (a b : ℕ) : ℕ :=
  let new_value := (a + b) % U64
  if new_value < a then UINT64_MAX else new_value

/-- The updated 64-bit value vector produced by the `add_histogram` loop
(`for (size_t i = 0; i < bin_size_; ++i)`). -/
def add_values (v64 v32 : List ℕ) (n : ℕ) : List ℕ :=
  (List.range n).map fun i => satAdd64 (v64.getD i 0) (v32.getD i 0)

/-- Indices of bins for which `add_histogram` prints the per-bin overflow
warning (`"Warning: Overflow detected in bin " << i`). -/
def overflow_bins (v64 v32 : List ℕ) (n : ℕ) : List ℕ :=
  (List.range n).filter fun i => (v64.getD i 0 + v32.getD i 0) % U64 < v64.getD i 0

/-- `HistogramData::add_histogram` (lines 174-193).  The data-type check of
line 175 is discharged statically by the `SumHist`/`FrameHist` types; the
bin-size mismatch of lines 179-181 throws `std::invalid_argument`, modeled as
`Except.error`.  On success the result carries the new running sum together
with the list of bins whose overflow warning was logged (the warnings are
non-fatal: every bin is still processed and the call returns normally). -/
def add_histogram (s : SumHist) (f : FrameHist) : Except String (SumHist × List ℕ) :=
  if f.binSize ≠ s.binSize then .error "Bin sizes must match for addition"
  else .ok ({ s with binValues64 := add_values s.binValues64 f.binValues32 s.binSize },
            overflow_bins s.binValues64 f.binValues32 s.binSize)

/-- `HistogramData::calculate_bin_edges` (lines 166-171).  The C++ expression
`(bin_offset + (i * bin_width)) * TPX3_TDC_CLOCK_PERIOD_SEC` performs the
multiplication and addition in `size_t` (the `int` operands are converted,
wrapping mod 2^64) and converts the unsigned result to `double`, modeled as an
exact cast to ℚ. -/
def calculate_bin_edges (binSize : ℕ) (binWidth binOffset : ℤ) : List ℚ :=
  (List.range (binSize + 1)).map fun i =>
    (((sizeT binOffset + i * sizeT binWidth) % U64 : ℕ) : ℚ) * TPX3_TDC_CLOCK_PERIOD_SEC

/-! ## HistogramProcessor::process_frame (lines 377-398) -/

/-- The running sum created on the first frame: same bin size, 64-bit values
initialized to zero by the constructor, bin edges copied from the frame
(lines 380-391). -/
def initSum (f : FrameHist) : SumHist :=
  { binSize := f.binSize, binEdges := f.binEdges,
    binValues64 := List.replicate f.binSize 0 }

/-- Observable outcome of one `process_frame` call: either the frame was merged
and the updated running sum persisted (`save_running_sum`), or the bin-size
mismatch exception was thrown (later caught by `process_data_line`). -/
inductive FrameOutcome
  | merged (saved : SumHist)
  | mismatch
deriving DecidableEq, Repr

/-- `HistogramProcessor::process_frame` (lines 377-398): lazily create the
running sum, add the frame, and persist.  Note that in the C++ the running sum
is assigned *before* `add_histogram` can throw, so the (possibly just created)
running sum survives a mismatch unchanged. -/
def process_frame (st : Option SumHist) (f : FrameHist) : Option SumHist × FrameOutcome :=
  let rs := st.getD (initSum f)
  match add_histogram rs f with
  | .error _ => (some rs, .mismatch)
  | .ok (rs2, _) => (some rs2, .merged rs2)

/-- Folding `process_frame` over a sequence of decoded frames. -/
def processFrames (st : Option SumHist) (frames : List FrameHist) : Option SumHist :=
  frames.foldl (fun s f => (process_frame s f).1) st

/-! ## NetworkClient (tpx3_histogram.cpp lines 206-354)

The socket is modeled as a list of outcomes of successive `recv` calls: a
nonempty chunk of bytes (possibly more than one call's worth, the excess being
kept for the next call, as in the kernel receive buffer), an orderly close
(`recv` returns 0), a transient `EAGAIN`/`EWOULDBLOCK` failure (`recv`
returns -1, `receive` keeps `connected_` true), or any other socket error
(`recv` returns -1, `receive` clears `connected_`).  Bytes are `Nat` values
below 256. -/

inductive RecvEvent
  | data (b : ℕ) (bs : List ℕ)
  | closed
  | again
  | fatal
deriving DecidableEq, Repr

/-- The byte content a receive event can deliver. -/
def RecvEvent.dataBytes : RecvEvent → List ℕ
  | .data b bs => b :: bs
  | _ => []

structure NetState where
  connected : Bool
  events : List RecvEvent
deriving DecidableEq, Repr

/-- Result of one `NetworkClient::receive` call: `ok bs` stands for a return
value of `bs.length > 0`, `closedOut` for 0, `errOut` for -1. -/
inductive RecvOut
  | ok (bs : List ℕ)
  | closedOut
  | errOut
deriving DecidableEq, Repr

/-- `NetworkClient::receive` (lines 309-327).  A `data` event delivers at most
`maxSize` bytes; undelivered bytes stay queued.  A zero return or a
non-transient error clears `connected_`; `EAGAIN`/`EWOULDBLOCK` leaves it set,
but the -1 return value is passed to the caller unchanged. -/
def receive (st : NetState) (maxSize : ℕ) : RecvOut × NetState :=
  if st.connected = false then (.errOut, st)
  else
    match st.events with
    | [] => (.errOut, st)
    | .data b bs :: rest =>
        (.ok ((b :: bs).take maxSize),
         { st with events :=
            match (b :: bs).drop maxSize with
            | [] => rest
            | c :: cs => .data c cs :: rest })
    | .closed :: rest => (.closedOut, { connected := false, events := rest })
    | .again :: rest => (.errOut, { st with events := rest })
    | .fatal :: rest => (.errOut, { connected := false, events := rest })

/-- Loop body of `NetworkClient::receive_exact` (lines 335-349): accumulate
into the destination until `size` bytes are present; any `receive` result
`<= 0` (close, transient or fatal error) aborts with `false`. -/
def receive_exact_go (st : NetState) (size : ℕ) (acc : List ℕ) :
    Bool × List ℕ × NetState :=
  if _h : acc.length < size then
    match receive st (size - acc.length) with
    | (.ok [], st2) => (false, acc, st2)
    | (.ok (c :: cs), st2) => receive_exact_go st2 size (acc ++ c :: cs)
    | (.closedOut, st2) => (false, acc, st2)
    | (.errOut, st2) => (false, acc, st2)
  else (true, acc, st)
termination_by size - acc.length
decreasing_by simp [List.length_append]; omega

/-- `NetworkClient::receive_exact` (lines 335-349). -/
def receive_exact (st : NetState) (size : ℕ) : Bool × List ℕ × NetState :=
  receive_exact_go st size []

/-! ## Payload decoding (tpx3_histogram.cpp lines 583-613)

`process_data_line` memcpy's the payload bytes into a `uint32_t` array and
applies `__builtin_bswap32` to each element.  On the little-endian host the
program targets, reading four memory bytes as a `uint32_t` is a little-endian
read; the byte-swap then yields the big-endian interpretation.  Both steps are
modeled; `% 256` models the truncation of each value to one memory byte
(socket bytes already satisfy it). -/

/-- Little-endian read of four memory bytes as a `uint32_t` (the `memcpy` into
`tof_bin_values` on a little-endian host). -/
def leWord32 (b0 b1 b2 b3 : ℕ) : ℕ :=
  b0 % 256 + b1 % 256 * 2 ^ 8 + b2 % 256 * 2 ^ 16 + b3 % 256 * 2 ^ 24

/-- `__builtin_bswap32` on a `uint32_t` value. -/
def bswap32 (w : ℕ) : ℕ :=
  w % 2 ^ 8 * 2 ^ 24 + w / 2 ^ 8 % 2 ^ 8 * 2 ^ 16 +
    w / 2 ^ 16 % 2 ^ 8 * 2 ^ 8 + w / 2 ^ 24 % 2 ^ 8

/-- The 32-bit values stored into the frame histogram by the loop at
lines 610-613: element `i` is the byte-swapped little-endian read of payload
bytes `4 i .. 4 i + 3`. -/
def payloadWords (bytes : List ℕ) (n : ℕ) : List ℕ :=
  (List.range n).map fun i =>
    bswap32 (leWord32 (bytes.getD (4 * i) 0) (bytes.getD (4 * i + 1) 0)
      (bytes.getD (4 * i + 2) 0) (bytes.getD (4 * i + 3) 0))

/-- Reference decoding used to state the reassembly property: the payload
interpreted as consecutive big-endian unsigned 32-bit counts. -/
def beWords : List ℕ → List ℕ
  | b0 :: b1 :: b2 :: b3 :: rest =>
      (b0 % 256 * 2 ^ 24 + b1 % 256 * 2 ^ 16 + b2 % 256 * 2 ^ 8 + b3 % 256) :: beWords rest
  | _ => []

/-- Payload acquisition of `process_data_line` (lines 587-607): bytes already
buffered after the newline are used first (`to_copy = min(remaining,
binary_needed)`), and the remainder is pulled with `receive_exact`; a failed
`receive_exact` makes `process_data_line` return `false`. -/
def readPayload (buffered : List ℕ) (net : NetState) (needed : ℕ) :
    Option (List ℕ) × NetState :=
  let first := buffered.take needed
  if first.length < needed then
    match receive_exact net (needed - first.length) with
    | (true, got, net2) => (some (first ++ got), net2)
    | (false, _, net2) => (none, net2)
  else (some first, net)

/-! ## Header parsing and the per-line driver (tpx3_histogram.cpp lines 552-639)

The JSON parsing is done by the external json-c library.  A parsed JSON value
is modeled as either a numeric value or `jother`, a value json-c cannot coerce
to an integer (`null`, array, object, non-numeric string);
`json_object_get_int` yields 0 for such values and clamps numeric values to
the `int32_t` range. -/

inductive JVal
  | jnum (n : ℤ)
  | jother
deriving DecidableEq, Repr

/-- `json_object_get_int` of json-c on a field value. -/
def json_get_int : JVal → ℤ
  | .jnum n => max (-(2 ^ 31)) (min n (2 ^ 31 - 1))
  | .jother => 0

/-- The four fields `process_data_line` looks up with
`json_object_object_get_ex`; `none` means the key is absent. -/
structure HeaderLine where
  frameNumber : Option JVal
  binSize : Option JVal
  binWidth : Option JVal
  binOffset : Option JVal
deriving DecidableEq, Repr

/-- A complete newline-terminated line handed to `process_data_line`:
either `json_tokener_parse` fails (`noJson`), or it yields a JSON record,
together with the bytes already buffered after the newline. -/
inductive LineInput
  | noJson
  | record (h : HeaderLine) (buffered : List ℕ)
deriving DecidableEq, Repr

/-- The conjunction of the four `json_object_object_get_ex` checks at
lines 563-566. -/
def fieldsPresent (h : HeaderLine) : Bool :=
  h.frameNumber.isSome && h.binSize.isSome && h.binWidth.isSome && h.binOffset.isSome

/-- Application state visible to `process_data_line`: the processor's running
sum, the socket, and the log of histograms persisted by `save_running_sum`
(one entry per successful merge). -/
structure AppState where
  proc : Option SumHist
  net : NetState
  writes : List SumHist
deriving DecidableEq, Repr

/-- `TPX3HistogramApp::process_data_line` (lines 552-639).  Unparseable lines
and lines missing a required field are skipped (`return true`).  A negative
`binSize` makes the `HistogramData` constructor throw (`vector::resize` on a
huge `size_t`), which the `catch` at line 633 absorbs, also `return true`.
A payload read failure returns `false` (fatal).  A bin-size mismatch inside
`process_frame` throws, is caught at line 633, and the loop continues. -/
def process_data_line (st : AppState) (line : LineInput) : AppState × Bool :=
  match line with
  | .noJson => (st, true)
  | .record h buffered =>
    if fieldsPresent h = false then (st, true)
    else
      let bin_size := json_get_int (h.binSize.getD .jother)
      let bin_width := json_get_int (h.binWidth.getD .jother)
      let bin_offset := json_get_int (h.binOffset.getD .jother)
      if bin_size < 0 then (st, true)
      else
        let n := bin_size.toNat
        match readPayload buffered st.net (n * 4) with
        | (none, net2) => ({ st with net := net2 }, false)
        | (some bytes, net2) =>
          let frame : FrameHist :=
            { binSize := n,
              binEdges := calculate_bin_edges n bin_width bin_offset,
              binValues32 := payloadWords bytes n }
          match process_frame st.proc frame with
          | (proc2, .merged s) =>
              ({ proc := proc2, net := net2, writes := st.writes ++ [s] }, true)
          | (proc2, .mismatch) =>
              ({ proc := proc2, net := net2, writes := st.writes }, true)

/-- The read loop of `TPX3HistogramApp::run` restricted to its sequence of
complete lines: process each line until one returns `false`. -/
def runLines (st : AppState) (lines : List LineInput) : AppState :=
  match lines with
  | [] => st
  | l :: rest =>
      match process_data_line st l with
      | (st2, true) => runLines st2 rest
      | (st2, false) => st2

/-! ## Persister (tpx3_histogram.cpp lines 412-458)

`save_histogram_to_file` writes `<< std::scientific << std::setprecision(9)`
for the `double` bin edges and plain `operator<<` for the `uint64_t` bin
values (stream manipulators do not affect integers).  Both printers are
implemented below over the exact-rational model; the digit recursions use a
fuel of 32 decimal digits, which covers every `uint64_t` and every `double`
value the program prints. -/

/-- The decimal digit character for `n % 10`. -/
def digitChar (n : ℕ) : Char := Char.ofNat (48 + n % 10)

/-- Decimal digits of `n` (most significant first); `fuel` bounds the digit
count. -/
def natDigits : ℕ → ℕ → List Char
  | 0, _ => []
  | fuel + 1, n => if n = 0 then [] else natDigits fuel (n / 10) ++ [digitChar n]

/-- Decimal rendering of an unsigned integer, as `operator<<` prints a
`uint64_t`. -/
def natToString (n : ℕ) : String :=
  if n = 0 then "0" else ⟨natDigits 32 n⟩

/-- Number of decimal digits of `n` (with `fuel` as recursion bound). -/
def digitsLen : ℕ → ℕ → ℕ
  | 0, _ => 0
  | fuel + 1, n => if n < 10 then 1 else digitsLen fuel (n / 10) + 1

/-- Whether `10 ^ e ≤ n / d` for a positive fraction `n / d`, computed on the
integer parts (for `e ≥ 0` this is `10^e * d ≤ n`; for `e < 0` it is
`d ≤ 10^(-e) * n`). -/
def le_pow10 (e : ℤ) (n d : ℕ) : Bool :=
  if 0 ≤ e then 10 ^ e.toNat * d ≤ n else d ≤ 10 ^ (-e).toNat * n

/-- Nearest integer to the nonnegative fraction `n / d`, ties to even (the
rounding `printf`-style formatting applies to the exact value). -/
def roundHalfEvenFrac (n d : ℕ) : ℕ :=
  let q := n / d
  let r := n % d
  if 2 * r < d then q else if d < 2 * r then q + 1 else if q % 2 = 0 then q else q + 1

/-- Left-pad a digit list with zeros to two characters, as the exponent field
of `%.9e`. -/
def pad2 (l : List Char) : List Char :=
  List.replicate (2 - l.length) (Char.ofNat 48) ++ l

/-- `std::scientific << std::setprecision(9)` rendering of a double value
(modeled as the exact rational it denotes): one leading digit, nine fractional
digits, and a signed two-digit exponent.  All arithmetic is carried out on the
rational's (normalized) numerator and denominator: the decimal exponent `e0`
is the unique `e` with `10^e ≤ |q| < 10^(e+1)`, located from the digit counts
and fixed up by direct comparison, and the ten mantissa digits are `|q|`
scaled by `10^(9-e0)` and rounded to nearest, ties to even, with a carry
adjustment when rounding reaches `10^10`. -/
def fmtSci9 (q : ℚ) : String :=
  if q.num = 0 then "0.000000000e+00"
  else
    let sgn : String := if q.num < 0 then "-" else ""
    let n := q.num.natAbs
    let d := q.den
    let g : ℤ := (digitsLen 64 n : ℤ) - (digitsLen 64 d : ℤ)
    let e0 : ℤ := if le_pow10 (g + 1) n d then g + 1
      else if le_pow10 g n d then g else g - 1
    let num2 : ℕ := if 0 ≤ 9 - e0 then n * 10 ^ (9 - e0).toNat else n
    let den2 : ℕ := if 0 ≤ 9 - e0 then d else d * 10 ^ (e0 - 9).toNat
    let m0 : ℕ := roundHalfEvenFrac num2 den2
    let m : ℕ := if m0 = 10 ^ 10 then 10 ^ 9 else m0
    let e : ℤ := if m0 = 10 ^ 10 then e0 + 1 else e0
    let ds := natDigits 32 m
    let esgn : String := if e < 0 then "-" else "+"
    sgn ++ ⟨ds.take 1 ++ ('.' :: ds.drop 1)⟩ ++ "e" ++ esgn ++ ⟨pad2 (natDigits 32 e.natAbs)⟩

/-- Concatenation of the strings written by successive loop iterations of
`save_histogram_to_file`. -/
def writeRows : List String → String
  | [] => ""
  | r :: rest => r ++ writeRows rest

/-- `HistogramProcessor::save_histogram_to_file` (lines 427-458) on a running
sum (`save_running_sum` always passes the running sum, so the
`RUNNING_SUM` branch of line 442 is taken): header comment lines, then one
`edge \t value` line per bin, then the last bin edge alone.  The function only
reads the histogram's bin size, edges and values, and its output is the
file's entire content (the file is rewritten from scratch). -/
def save_histogram_to_file (h : SumHist) : String :=
  "# Time of Flight Histogram Data\n" ++
  ("# Bins: " ++ natToString h.binSize ++ "\n") ++
  "#\n" ++
  writeRows ((List.range h.binSize).map fun i =>
    fmtSci9 (h.binEdges.getD i 0) ++ "\t" ++ natToString (h.binValues64.getD i 0) ++ "\n") ++
  (fmtSci9 (h.binEdges.getD h.binSize 0) ++ "\n")

/-- Join lines with newline separators (no trailing newline), following the
spec's description of the output file as a sequence of lines. -/
def joinWithNewlines : List String → String
  | [] => ""
  | [s] => s
  | s :: rest => s ++ "\n" ++ joinWithNewlines rest

/-- The persisted file as the spec describes it, line by line: three header
lines (the second stating the bin count), `bin_count` lines of
`edge \t value`, and a final line holding only the last edge.  The edge
renderer and value renderer are passed in so the notation used for each
column is explicit in the statements below. -/
def spec_file_layout (binCount : ℕ) (edge : ℕ → String) (val : ℕ → String) : String :=
  joinWithNewlines
    (["# Time of Flight Histogram Data", "# Bins: " ++ natToString binCount, "#"] ++
      ((List.range binCount).map fun i => edge i ++ "\t" ++ val i) ++
      [edge binCount]) ++ "\n"

/-! ## Helper lemmas about saturating addition -/

lemma U64_pos : 0 < U64 := by norm_num [U64]

/-- The wrap test of `add_histogram` fires exactly when the true sum exceeds
`UINT64_MAX` (for operands below the modulus). -/
lemma wrap_iff (a b : ℕ) (ha : a < U64) (hb : b < U64) :
    (a + b) % U64 < a ↔ UINT64_MAX < a + b := by
  unfold U64 UINT64_MAX at *
  rcases Nat.lt_or_ge (a + b) (2 ^ 64) with h | h
  · rw [Nat.mod_eq_of_lt h]; omega
  · rw [Nat.mod_eq_sub_mod h, Nat.mod_eq_of_lt (by omega)]; omega

lemma satAdd64_le_max (a b : ℕ) : satAdd64 a b ≤ UINT64_MAX := by
  simp only [satAdd64]
  split
  · exact le_refl _
  · have h := Nat.mod_lt (a + b) U64_pos
    unfold U64 UINT64_MAX at *
    omega

/-- Saturating addition computes the clamped sum. -/
lemma satAdd64_eq_min (a b : ℕ) (ha : a < U64) (hb : b < U64) :
    satAdd64 a b = min (a + b) UINT64_MAX := by
  simp only [satAdd64]
  rcases Nat.lt_or_ge UINT64_MAX (a + b) with h | h
  · rw [if_pos ((wrap_iff a b ha hb).2 h)]
    omega
  · rw [if_neg (by rw [wrap_iff a b ha hb]; omega)]
    have h2 : a + b < U64 := by unfold U64 UINT64_MAX at *; omega
    rw [Nat.mod_eq_of_lt h2]
    omega

lemma add_values_length (v64 v32 : List ℕ) (n : ℕ) :
    (add_values v64 v32 n).length = n := by
  simp [add_values]

lemma add_values_getD (v64 v32 : List ℕ) (n i : ℕ) (hi : i < n) :
    (add_values v64 v32 n).getD i 0 = satAdd64 (v64.getD i 0) (v32.getD i 0) := by
  unfold add_values
  rw [List.getD_eq_getElem?_getD, List.getElem?_map, List.getElem?_range hi]
  rfl

lemma mem_overflow_bins (v64 v32 : List ℕ) (n i : ℕ) :
    i ∈ overflow_bins v64 v32 n ↔
      i < n ∧ (v64.getD i 0 + v32.getD i 0) % U64 < v64.getD i 0 := by
  simp [overflow_bins, List.mem_filter, List.mem_range, and_comm]

lemma getD_lt_of_forall (l : List ℕ) (c i : ℕ) (h : ∀ v ∈ l, v < c)
    (hi : i < l.length) : l.getD i 0 < c := by
  rw [List.getD_eq_getElem l _ hi]
  exact h _ (List.getElem_mem hi)

instance (f : FrameHist) : Decidable (FrameWF f) := by
  unfold FrameWF
  infer_instance

instance (s : SumHist) : Decidable (SumWF s) := by
  unfold SumWF
  infer_instance

/-! ## C2: per-merge overflow clamping -/

/-- C2: in every merge of a sample into the running sum, a bin whose true sum
`running_sum.value[i] + sample.value[i]` would exceed `UINT64_MAX` is stored
clamped at `UINT64_MAX` (not the wrapped value mod 2^64) and its overflow is
reported in the warning list; a bin whose sum fits receives the exact sum and
is not reported.  The merge itself returns `ok` (non-fatal). -/
theorem c2_overflow_clamps (s : SumHist) (f : FrameHist) (i : ℕ)
    (hs : SumWF s) (hf : FrameWF f) (hsz : f.binSize = s.binSize)
    (hi : i < s.binSize) :
    ∃ s2 warns, add_histogram s f = .ok (s2, warns) ∧
      (UINT64_MAX < s.binValues64.getD i 0 + f.binValues32.getD i 0 →
        s2.binValues64.getD i 0 = UINT64_MAX ∧ i ∈ warns) ∧
      (s.binValues64.getD i 0 + f.binValues32.getD i 0 ≤ UINT64_MAX →
        s2.binValues64.getD i 0 = s.binValues64.getD i 0 + f.binValues32.getD i 0 ∧
          i ∉ warns) := by
  obtain ⟨-, hslen, hsval⟩ := hs
  obtain ⟨-, hflen, hfval⟩ := hf
  have ha : s.binValues64.getD i 0 < U64 :=
    getD_lt_of_forall _ _ _ hsval (by omega)
  have hb : f.binValues32.getD i 0 < U64 := by
    have := getD_lt_of_forall _ _ i hfval (by omega)
    unfold U64
    omega
  refine ⟨_, _, by rw [add_histogram, if_neg (by omega)], ?_, ?_⟩ <;> intro hcase
  · constructor
    · rw [add_values_getD _ _ _ _ hi, satAdd64_eq_min _ _ ha hb]
      omega
    · rw [mem_overflow_bins]
      exact ⟨hi, (wrap_iff _ _ ha hb).2 hcase⟩
  · constructor
    · rw [add_values_getD _ _ _ _ hi, satAdd64_eq_min _ _ ha hb]
      omega
    · rw [mem_overflow_bins]
      rw [wrap_iff _ _ ha hb]
      omega

/-- C2 witness: the spec's scenario — a running-sum bin at `UINT64_MAX - 1`
merged with a sample value of 5 clamps to `UINT64_MAX`. -/
theorem c2_overflow_clamps_witness :
    ∃ s2 warns,
      add_histogram ⟨1, [0, 0], [UINT64_MAX - 1]⟩ ⟨1, [0, 0], [5]⟩ = .ok (s2, warns) ∧
      (UINT64_MAX < (UINT64_MAX - 1 : ℕ) + 5 →
        s2.binValues64.getD 0 0 = UINT64_MAX ∧ 0 ∈ warns) ∧
      ((UINT64_MAX - 1 : ℕ) + 5 ≤ UINT64_MAX →
        s2.binValues64.getD 0 0 = (UINT64_MAX - 1 : ℕ) + 5 ∧ 0 ∉ warns) := by
  have h := c2_overflow_clamps ⟨1, [0, 0], [UINT64_MAX - 1]⟩ ⟨1, [0, 0], [5]⟩ 0
    (by constructor <;> simp [UINT64_MAX]) (by constructor <;> simp)
    rfl (by norm_num)
  simpa using h

/-! ## C9: merges never decrease a bin, saturation is absorbing -/

/-- C9: every `process_frame` call on an established running sum yields a
running sum in which each bin value is at least its previous value (whether
the frame merged or was rejected for a bin-count mismatch), and a bin already
at `UINT64_MAX` remains exactly there. -/
theorem c9_merge_monotone (rs : SumHist) (f : FrameHist) (i : ℕ)
    (hs : SumWF rs) (hf : FrameWF f) (hi : i < rs.binSize) :
    ∃ rs2 out, process_frame (some rs) f = (some rs2, out) ∧
      rs.binValues64.getD i 0 ≤ rs2.binValues64.getD i 0 ∧
      (rs.binValues64.getD i 0 = UINT64_MAX →
        rs2.binValues64.getD i 0 = UINT64_MAX) := by
  obtain ⟨-, hslen, hsval⟩ := hs
  obtain ⟨-, hflen, hfval⟩ := hf
  have ha : rs.binValues64.getD i 0 < U64 :=
    getD_lt_of_forall _ _ _ hsval (by omega)
  by_cases hsz : f.binSize = rs.binSize
  · have hb : f.binValues32.getD i 0 < U64 := by
      have := getD_lt_of_forall _ _ i hfval (by omega)
      unfold U64
      omega
    refine ⟨{ rs with binValues64 := add_values rs.binValues64 f.binValues32 rs.binSize },
      .merged { rs with binValues64 := add_values rs.binValues64 f.binValues32 rs.binSize },
      by simp [process_frame, add_histogram, hsz], ?_, ?_⟩ <;>
      rw [add_values_getD _ _ _ _ hi, satAdd64_eq_min _ _ ha hb]
    · have : U64 = UINT64_MAX + 1 := by unfold U64 UINT64_MAX; omega
      omega
    · intro h
      omega
  · exact ⟨rs, .mismatch, by simp [process_frame, add_histogram, hsz], le_refl _, fun h => h⟩

/-- C9 witness: a saturated bin stays saturated under a further merge. -/
theorem c9_merge_monotone_witness :
    ∃ rs2 out,
      process_frame (some ⟨1, [0, 0], [UINT64_MAX]⟩) ⟨1, [0, 0], [7]⟩ = (some rs2, out) ∧
      (⟨1, [0, 0], [UINT64_MAX]⟩ : SumHist).binValues64.getD 0 0 ≤
        rs2.binValues64.getD 0 0 ∧
      ((⟨1, [0, 0], [UINT64_MAX]⟩ : SumHist).binValues64.getD 0 0 = UINT64_MAX →
        rs2.binValues64.getD 0 0 = UINT64_MAX) :=
  c9_merge_monotone ⟨1, [0, 0], [UINT64_MAX]⟩ ⟨1, [0, 0], [7]⟩ 0
    (by constructor <;> simp [UINT64_MAX]) (by constructor <;> simp) (by norm_num)

/-! ## C10: the running sum's geometry is frozen after creation -/

/-- C10: once the running sum exists, any sequence of further `process_frame`
calls leaves its `bin_count` and all its bin edges untouched — only the
64-bit value vector can change. -/
theorem c10_geometry_fixed (rs : SumHist) (frames : List FrameHist) :
    ∃ rs2, processFrames (some rs) frames = some rs2 ∧
      rs2.binSize = rs.binSize ∧ rs2.binEdges = rs.binEdges := by
  induction frames generalizing rs with
  | nil => exact ⟨rs, rfl, rfl, rfl⟩
  | cons f fs ih =>
      by_cases hsz : f.binSize = rs.binSize
      · have hstep : (process_frame (some rs) f).1 =
            some { rs with binValues64 := add_values rs.binValues64 f.binValues32 rs.binSize } := by
          simp [process_frame, add_histogram, hsz]
        obtain ⟨rs2, hrun, h1, h2⟩ :=
          ih { rs with binValues64 := add_values rs.binValues64 f.binValues32 rs.binSize }
        exact ⟨rs2, by rw [processFrames, List.foldl_cons, hstep] at *; exact hrun, h1, h2⟩
      · have hstep : (process_frame (some rs) f).1 = some rs := by
          simp [process_frame, add_histogram, hsz]
        obtain ⟨rs2, hrun, h1, h2⟩ := ih rs
        exact ⟨rs2, by rw [processFrames, List.foldl_cons, hstep] at *; exact hrun, h1, h2⟩

/-! ## C1: the running sum totals the samples, clamped at `UINT64_MAX` -/

/-- Folding well-formed frames of bin count `n` onto an existing running sum
adds the per-bin totals with a single clamp at `UINT64_MAX`. -/
lemma processFrames_getD (n : ℕ) (frames : List FrameHist) (i : ℕ) :
    ∀ s : SumHist, s.binSize = n → s.binValues64.length = n →
      s.binValues64.getD i 0 ≤ UINT64_MAX →
      (∀ f ∈ frames, f.binSize = n ∧ FrameWF f) → i < n →
      ∃ s2, processFrames (some s) frames = some s2 ∧
        s2.binSize = n ∧ s2.binValues64.length = n ∧
        s2.binValues64.getD i 0 =
          min (s.binValues64.getD i 0 + (frames.map fun f => f.binValues32.getD i 0).sum)
            UINT64_MAX := by
  induction frames with
  | nil =>
      intro s hsz hlen hle _ _
      exact ⟨s, rfl, hsz, hlen, by simp only [List.map_nil, List.sum_nil, Nat.add_zero]; omega⟩
  | cons f fs ih =>
      intro s hsz hlen hle hall hi
      obtain ⟨hfn, -, hflen, hfval⟩ : f.binSize = n ∧ FrameWF f := hall f (by simp)
      have ha : s.binValues64.getD i 0 < U64 := by
        unfold U64 UINT64_MAX at *
        omega
      have hb : f.binValues32.getD i 0 < U64 := by
        have h32 := getD_lt_of_forall _ _ i hfval (by omega)
        unfold U64
        omega
      have hstep : (process_frame (some s) f).1 =
          some { s with binValues64 := add_values s.binValues64 f.binValues32 s.binSize } := by
        simp [process_frame, add_histogram, hfn, hsz]
      obtain ⟨s2, hrun, h1, h2, h3⟩ :=
        ih { s with binValues64 := add_values s.binValues64 f.binValues32 s.binSize }
          hsz (by rw [add_values_length]; omega)
          (by rw [add_values_getD _ _ _ _ (by omega)]; exact satAdd64_le_max _ _)
          (fun g hg => hall g (by simp [hg])) hi
      refine ⟨s2, ?_, h1, h2, ?_⟩
      · rw [processFrames, List.foldl_cons, hstep] at *
        exact hrun
      · rw [h3, add_values_getD _ _ _ _ (by omega), satAdd64_eq_min _ _ ha hb,
          List.map_cons, List.sum_cons]
        omega

/-- C1: starting from no running sum, after any nonempty sequence of
well-formed frames sharing bin count `n` the final running-sum value in each
bin `i` is the full sum of the samples' values in bin `i`, clamped at
`UINT64_MAX` — i.e. `min(sum, UINT64_MAX)`. -/
theorem c1_running_sum_totals (n : ℕ) (frames : List FrameHist) (i : ℕ)
    (hne : frames ≠ [])
    (hall : ∀ f ∈ frames, f.binSize = n ∧ FrameWF f)
    (hi : i < n) :
    ∃ s, processFrames none frames = some s ∧
      s.binValues64.getD i 0 =
        min ((frames.map fun f => f.binValues32.getD i 0).sum) UINT64_MAX := by
  match frames, hne with
  | f :: fs, _ =>
      obtain ⟨hfn, -, hflen, hfval⟩ : f.binSize = n ∧ FrameWF f := hall f (by simp)
      have hb : f.binValues32.getD i 0 < U64 := by
        have h32 := getD_lt_of_forall _ _ i hfval (by omega)
        unfold U64
        omega
      have hzero : (List.replicate f.binSize (0 : ℕ)).getD i 0 = 0 := by
        rw [List.getD_eq_getElem?_getD, List.getElem?_replicate]
        split <;> rfl
      have hstep : (process_frame none f).1 =
          some { initSum f with
            binValues64 := add_values (List.replicate f.binSize 0) f.binValues32 f.binSize } := by
        simp [process_frame, add_histogram, initSum]
      obtain ⟨s2, hrun, -, -, h3⟩ :=
        processFrames_getD n fs i
          { initSum f with
            binValues64 := add_values (List.replicate f.binSize 0) f.binValues32 f.binSize }
          (by simp [initSum, hfn]) (by simp [initSum, add_values_length, hfn])
          (by rw [add_values_getD _ _ _ _ (by omega)]; exact satAdd64_le_max _ _)
          (fun g hg => hall g (by simp [hg])) hi
      refine ⟨s2, ?_, ?_⟩
      · rw [processFrames, List.foldl_cons, hstep] at *
        exact hrun
      · rw [h3, add_values_getD _ _ _ _ (by omega), hzero,
          satAdd64_eq_min _ _ (by unfold U64; omega) hb, List.map_cons, List.sum_cons]
        omega

/-- C1 witness: the spec's scenario — two frames `[1,2,3,4]` with bin count 4
accumulate to `[2,4,6,8]`; in bin 0 the total 2 is below the clamp. -/
theorem c1_running_sum_totals_witness :
    ∃ s, processFrames none
        [⟨4, [0, 0, 0, 0, 0], [1, 2, 3, 4]⟩, ⟨4, [0, 0, 0, 0, 0], [1, 2, 3, 4]⟩] = some s ∧
      s.binValues64.getD 0 0 =
        min (([⟨4, [0, 0, 0, 0, 0], [1, 2, 3, 4]⟩,
               ⟨4, [0, 0, 0, 0, 0], [1, 2, 3, 4]⟩] : List FrameHist).map
              fun f => f.binValues32.getD 0 0).sum UINT64_MAX :=
  c1_running_sum_totals 4
    [⟨4, [0, 0, 0, 0, 0], [1, 2, 3, 4]⟩, ⟨4, [0, 0, 0, 0, 0], [1, 2, 3, 4]⟩] 0
    (by decide) (by decide) (by decide)

/-! ## C3: a bin-count mismatch is a recoverable per-frame error -/

/-- C3: when a frame's decoded bin count differs from the established running
sum's bin count, `process_data_line` leaves the running sum (bin count, edges
and values) exactly as it was, performs no persistence write for the frame,
and returns `true` so that processing continues with the next frame (the
`std::invalid_argument` from `add_histogram` is caught at line 633). -/
theorem c3_mismatch_recoverable (st : AppState) (h : HeaderLine) (buffered : List ℕ)
    (rs : SumHist) (bytes : List ℕ) (net2 : NetState)
    (hproc : st.proc = some rs)
    (hfields : fieldsPresent h = true)
    (hpos : 0 ≤ json_get_int (h.binSize.getD .jother))
    (hread : readPayload buffered st.net ((json_get_int (h.binSize.getD .jother)).toNat * 4)
        = (some bytes, net2))
    (hmismatch : (json_get_int (h.binSize.getD .jother)).toNat ≠ rs.binSize) :
    process_data_line st (.record h buffered) =
      ({ proc := st.proc, net := net2, writes := st.writes }, true) := by
  have hpf : ∀ fr : FrameHist, fr.binSize = (json_get_int (h.binSize.getD .jother)).toNat →
      process_frame st.proc fr = (some rs, .mismatch) := by
    intro fr hfr
    rw [hproc]
    simp [process_frame, add_histogram, hfr, hmismatch]
  show (if fieldsPresent h = false then (st, true) else _) = _
  rw [if_neg (by simp [hfields])]
  show (if json_get_int (h.binSize.getD .jother) < 0 then (st, true) else _) = _
  rw [if_neg (by omega)]
  simp only [hread]
  rw [hpf _ rfl, hproc]

/-- C3 witness: a 1-bin frame against an established 2-bin running sum is
dropped with the state intact and processing continuing. -/
theorem c3_mismatch_recoverable_witness :
    process_data_line ⟨some ⟨2, [0, 0, 0], [1, 1]⟩, ⟨true, []⟩, []⟩
        (.record ⟨some (.jnum 3), some (.jnum 1), some (.jnum 10), some (.jnum 0)⟩
          [0, 0, 0, 7]) =
      ({ proc := (⟨some ⟨2, [0, 0, 0], [1, 1]⟩, ⟨true, []⟩, []⟩ : AppState).proc,
         net := ⟨true, []⟩,
         writes := (⟨some ⟨2, [0, 0, 0], [1, 1]⟩, ⟨true, []⟩, []⟩ : AppState).writes }, true) :=
  c3_mismatch_recoverable ⟨some ⟨2, [0, 0, 0], [1, 1]⟩, ⟨true, []⟩, []⟩
    ⟨some (.jnum 3), some (.jnum 1), some (.jnum 10), some (.jnum 0)⟩
    [0, 0, 0, 7] ⟨2, [0, 0, 0], [1, 1]⟩ [0, 0, 0, 7] ⟨true, []⟩
    rfl (by decide) (by decide) (by decide) (by decide)

/-! ## C5: malformed header lines are dropped and the decoder resyncs -/

/-- A header line the code discards: `json_tokener_parse` failed, or one of
the four required keys is absent. -/
def malformed (line : LineInput) : Prop :=
  match line with
  | .noJson => True
  | .record h _ =>
      h.frameNumber = none ∨ h.binSize = none ∨ h.binWidth = none ∨ h.binOffset = none

instance (line : LineInput) : Decidable (malformed line) := by
  unfold malformed
  cases line <;> infer_instance

/-- C5 (amended): a header line whose JSON record is absent or which is
missing one of the four required fields is discarded with no change to any
state (in particular the running sum), the loop continues in the
header-awaiting state, and the remaining input — including the next valid
header+payload pair — is processed exactly as if the discarded line had never
been received. -/
theorem c5_malformed_resync (st : AppState) (line : LineInput) (rest : List LineInput)
    (hmal : malformed line) :
    process_data_line st line = (st, true) ∧
    runLines st (line :: rest) = runLines st rest := by
  have h1 : process_data_line st line = (st, true) := by
    match line, hmal with
    | .noJson, _ => rfl
    | .record h buffered, hm =>
        show (if fieldsPresent h = false then (st, true) else _) = _
        rw [if_pos ?_]
        rcases hm with hm | hm | hm | hm <;> simp [fieldsPresent, hm]
  refine ⟨h1, ?_⟩
  simp only [runLines, h1]

/-- C5 witness: a record missing `frameNumber` is dropped; a following line is
processed as if the bad line never arrived. -/
theorem c5_malformed_resync_witness :
    process_data_line ⟨none, ⟨true, []⟩, []⟩
        (.record ⟨none, some (.jnum 1), some (.jnum 1), some (.jnum 1)⟩ []) =
      (⟨none, ⟨true, []⟩, []⟩, true) ∧
    runLines ⟨none, ⟨true, []⟩, []⟩
        [.record ⟨none, some (.jnum 1), some (.jnum 1), some (.jnum 1)⟩ [], .noJson] =
      runLines ⟨none, ⟨true, []⟩, []⟩ [.noJson] :=
  c5_malformed_resync ⟨none, ⟨true, []⟩, []⟩
    (.record ⟨none, some (.jnum 1), some (.jnum 1), some (.jnum 1)⟩ []) [.noJson]
    (by decide)

/-- C5 counterexample to the claim as stated: a line whose `binSize` field is
present but non-numeric (e.g. JSON `null`) is *not* discarded.
`json_object_object_get_ex` succeeds, `json_object_get_int` coerces the value
to 0, and the code processes a 0-bin frame: starting with no running sum, the
running sum comes into existence (with bin count 0) and a persistence write
occurs — a change of state, where the claim requires none. -/
theorem c5_nonnumeric_counterexample :
    (process_data_line ⟨none, ⟨true, []⟩, []⟩
        (.record ⟨some (.jnum 1), some .jother, some (.jnum 0), some (.jnum 0)⟩ [])).1.proc
      ≠ (⟨none, ⟨true, []⟩, []⟩ : AppState).proc ∧
    (process_data_line ⟨none, ⟨true, []⟩, []⟩
        (.record ⟨some (.jnum 1), some .jother, some (.jnum 0), some (.jnum 0)⟩ [])).1.writes
      ≠ (⟨none, ⟨true, []⟩, []⟩ : AppState).writes := by
  decide

/-! ## C4: receive_exact succeeds exactly on full reads -/

lemma receive_ok_length (st : NetState) (m : ℕ) (bs : List ℕ) (st2 : NetState)
    (h : receive st m = (.ok bs, st2)) : bs.length ≤ m := by
  unfold receive at h
  split at h
  · exact absurd h (by simp)
  · cases hev : st.events <;> rw [hev] at h
    · exact absurd h (by simp)
    · rename_i e rest
      cases e
      case data b bs2 =>
        simp only [Prod.mk.injEq, RecvOut.ok.injEq] at h
        rw [← h.1]
        simp
      all_goals exact absurd h (by simp)

/-- Invariant of the `receive_exact` loop: starting below the target, the
returned buffer never exceeds `size` bytes and the boolean result is `true`
exactly when the buffer holds `size` bytes. -/
lemma receive_exact_go_spec (st : NetState) (size : ℕ) (acc : List ℕ) :
    acc.length ≤ size →
      (receive_exact_go st size acc).2.1.length ≤ size ∧
      ((receive_exact_go st size acc).1 = true ↔
        (receive_exact_go st size acc).2.1.length = size) := by
  induction st, size, acc using receive_exact_go.induct with
  | case1 st size acc h st2 hrec =>
      intro _
      have hstep : receive_exact_go st size acc = (false, acc, st2) := by
        rw [receive_exact_go.eq_def, dif_pos h, hrec]
      rw [hstep]
      refine ⟨show acc.length ≤ size by omega, ?_⟩
      show false = true ↔ acc.length = size
      simp
      omega
  | case2 st size acc h c cs st2 hrec ih =>
      intro _
      have hstep : receive_exact_go st size acc = receive_exact_go st2 size (acc ++ c :: cs) := by
        rw [receive_exact_go.eq_def, dif_pos h, hrec]
      have hlen : (c :: cs).length ≤ size - acc.length :=
        receive_ok_length _ _ _ _ hrec
      rw [hstep]
      exact ih (by simp only [List.length_append]; omega)
  | case3 st size acc h st2 hrec =>
      intro _
      have hstep : receive_exact_go st size acc = (false, acc, st2) := by
        rw [receive_exact_go.eq_def, dif_pos h, hrec]
      rw [hstep]
      refine ⟨show acc.length ≤ size by omega, ?_⟩
      show false = true ↔ acc.length = size
      simp
      omega
  | case4 st size acc h st2 hrec =>
      intro _
      have hstep : receive_exact_go st size acc = (false, acc, st2) := by
        rw [receive_exact_go.eq_def, dif_pos h, hrec]
      rw [hstep]
      refine ⟨show acc.length ≤ size by omega, ?_⟩
      show false = true ↔ acc.length = size
      simp
      omega
  | case5 st size acc h =>
      intro hacc
      have hstep : receive_exact_go st size acc = (true, acc, st) := by
        rw [receive_exact_go.eq_def, dif_neg h]
      rw [hstep]
      refine ⟨show acc.length ≤ size by omega, ?_⟩
      show true = true ↔ acc.length = size
      simp
      omega

/-- C4 (amended): `receive_exact(n)` returns success exactly when `n` bytes
were accumulated — it never reports a partial byte count as success — and any
receive result `<= 0`, *including* a transient try-again condition, makes it
fail atomically with nothing accumulated on that first read (the code does
not retry: `if (bytes <= 0) return false;` also covers the -1 returned for
`EAGAIN`/`EWOULDBLOCK`). -/
theorem c4_receive_exact_exactness (st : NetState) (size : ℕ) :
    ((receive_exact st size).1 = true ↔ (receive_exact st size).2.1.length = size) ∧
    (∀ rest, st.connected = true → st.events = .again :: rest → 0 < size →
      (receive_exact st size).1 = false ∧ (receive_exact st size).2.1 = []) := by
  constructor
  · exact (receive_exact_go_spec st size [] (by simp)).2
  · intro rest hconn hev hsize
    have hrecv : receive st (size - ([] : List ℕ).length) =
        (.errOut, { st with events := rest }) := by
      unfold receive
      rw [hev]
      simp [hconn]
    unfold receive_exact
    rw [receive_exact_go.eq_def, dif_pos (by simpa using hsize), hrecv]
    exact ⟨rfl, rfl⟩

/-- C4 witness: at `n = 1` with a transient error queued first, success is
reported iff one byte was accumulated, and the transient error aborts with
nothing accumulated. -/
theorem c4_receive_exact_exactness_witness :
    ((receive_exact ⟨true, [.again, .data 9 []]⟩ 1).1 = true ↔
      (receive_exact ⟨true, [.again, .data 9 []]⟩ 1).2.1.length = 1) ∧
    ((receive_exact ⟨true, [.again, .data 9 []]⟩ 1).1 = false ∧
      (receive_exact ⟨true, [.again, .data 9 []]⟩ 1).2.1 = []) :=
  ⟨(c4_receive_exact_exactness ⟨true, [.again, .data 9 []]⟩ 1).1,
   (c4_receive_exact_exactness ⟨true, [.again, .data 9 []]⟩ 1).2 [.data 9 []]
     rfl rfl (by decide)⟩

/-- C4 counterexample to the claim as stated: the claim requires a transient
"try again" receive result to be retried rather than treated as failure.
Concretely, with an `EAGAIN` outcome queued ahead of a data byte,
`receive_exact(1)` returns failure — even though the connection is still
open and the very next receive would deliver the byte (dropping the
transient event makes the same call succeed with that byte). -/
theorem c4_transient_counterexample :
    (receive_exact ⟨true, [.again, .data 9 []]⟩ 1).1 = false ∧
    (receive_exact ⟨true, [.again, .data 9 []]⟩ 1).2.2.connected = true ∧
    (receive_exact ⟨true, [.data 9 []]⟩ 1).1 = true ∧
    (receive_exact ⟨true, [.data 9 []]⟩ 1).2.1 = [9] := by
  refine ⟨?_, ?_, ?_, ?_⟩ <;> simp [receive_exact, receive_exact_go, receive]

/-! ## C8: payload reassembly is independent of transport fragmentation -/

/-- Over a stream of pure data events whose bytes total exactly the requested
size, `receive_exact` succeeds and returns their concatenation. -/
lemma receive_exact_go_all_data (events : List RecvEvent) :
    ∀ acc size, (∀ e ∈ events, e.dataBytes ≠ []) →
      acc.length + (events.map RecvEvent.dataBytes).flatten.length = size →
      receive_exact_go ⟨true, events⟩ size acc =
        (true, acc ++ (events.map RecvEvent.dataBytes).flatten, ⟨true, []⟩) := by
  induction events with
  | nil =>
      intro acc size _ hsum
      simp only [List.map_nil, List.flatten_nil, List.length_nil, Nat.add_zero] at hsum
      rw [receive_exact_go.eq_def, dif_neg (by omega)]
      simp
  | cons e rest ih =>
      intro acc size hdata hsum
      cases e with
      | data b bs =>
          simp only [List.map_cons, List.flatten_cons, List.length_append,
            RecvEvent.dataBytes, List.length_cons] at hsum
          have hlt : acc.length < size := by omega
          have hchunklen : (b :: bs).length ≤ size - acc.length := by
            simp only [List.length_cons]
            omega
          have hrecv : receive ⟨true, RecvEvent.data b bs :: rest⟩ (size - acc.length) =
              (.ok (b :: bs), ⟨true, rest⟩) := by
            unfold receive
            simp [List.take_of_length_le hchunklen, List.drop_eq_nil_of_le hchunklen]
          rw [receive_exact_go.eq_def, dif_pos hlt, hrecv]
          show receive_exact_go ⟨true, rest⟩ size (acc ++ b :: bs) = _
          rw [ih (acc ++ b :: bs) size (fun e he => hdata e (by simp [he]))
            (by simp only [List.length_append, List.length_cons]; omega)]
          simp [RecvEvent.dataBytes]
      | closed => exact absurd rfl (hdata _ (List.mem_cons_self _ _))
      | again => exact absurd rfl (hdata _ (List.mem_cons_self _ _))
      | fatal => exact absurd rfl (hdata _ (List.mem_cons_self _ _))

/-- Byte-swapping the little-endian read of four bytes yields their big-endian
value: the memcpy-plus-`__builtin_bswap32` pipeline decodes big-endian. -/
lemma bswap32_leWord32 (b0 b1 b2 b3 : ℕ) :
    bswap32 (leWord32 b0 b1 b2 b3) =
      b0 % 256 * 2 ^ 24 + b1 % 256 * 2 ^ 16 + b2 % 256 * 2 ^ 8 + b3 % 256 := by
  unfold bswap32 leWord32
  omega

/-- On a payload of exactly `4 n` bytes, the code's indexed decode loop equals
the big-endian chunk decoding. -/
lemma payloadWords_eq_beWords : ∀ (n : ℕ) (bytes : List ℕ), bytes.length = 4 * n →
    payloadWords bytes n = beWords bytes := by
  intro n
  induction n with
  | zero =>
      intro bytes h
      match bytes, h with
      | [], _ => rfl
  | succ m ih =>
      intro bytes h
      match bytes, h with
      | b0 :: b1 :: b2 :: b3 :: rest, h =>
          have hrest : rest.length = 4 * m := by
            simp only [List.length_cons] at h
            omega
          have hbe : beWords (b0 :: b1 :: b2 :: b3 :: rest) =
              (b0 % 256 * 2 ^ 24 + b1 % 256 * 2 ^ 16 + b2 % 256 * 2 ^ 8 + b3 % 256) ::
                beWords rest := rfl
          unfold payloadWords
          rw [hbe, List.range_succ_eq_map, List.map_cons, List.map_map, List.cons.injEq]
          constructor
          · norm_num [List.getD_cons_zero, List.getD_cons_succ]
            exact bswap32_leWord32 b0 b1 b2 b3
          · rw [← ih rest hrest]
            unfold payloadWords
            refine List.map_congr_left fun i _ => ?_
            have h4 : ∀ k : ℕ, (b0 :: b1 :: b2 :: b3 :: rest).getD (4 * Nat.succ i + k) 0 =
                rest.getD (4 * i + k) 0 := by
              intro k
              have harith : 4 * Nat.succ i + k = (4 * i + k) + 1 + 1 + 1 + 1 := by omega
              rw [harith]
              simp [List.getD_cons_succ]
            have h0 : (b0 :: b1 :: b2 :: b3 :: rest).getD (4 * Nat.succ i) 0 =
                rest.getD (4 * i) 0 := by
              have hx := h4 0
              simpa using hx
            simp only [Function.comp_apply]
            rw [h4 1, h4 2, h4 3, h0]

/-- C8: for a payload of `bin_count × 4` bytes, every way of splitting it into
bytes already buffered after the header terminator plus a sequence of
transport data chunks decodes to the same result: the payload's sequence of
`bin_count` big-endian unsigned 32-bit counts. -/
theorem c8_reassembly_independent (n : ℕ) (payload buffered : List ℕ)
    (events : List RecvEvent)
    (hlen : payload.length = 4 * n)
    (hdata : ∀ e ∈ events, e.dataBytes ≠ [])
    (hsplit : buffered ++ (events.map RecvEvent.dataBytes).flatten = payload) :
    ((readPayload buffered ⟨true, events⟩ (n * 4)).1.map fun bytes => payloadWords bytes n)
      = some (beWords payload) := by
  have hlens := congrArg List.length hsplit
  simp only [List.length_append] at hlens
  have hblen : buffered.length ≤ n * 4 := by omega
  simp only [readPayload, List.take_of_length_le hblen]
  by_cases hcase : buffered.length < n * 4
  · rw [if_pos hcase]
    rw [receive_exact, receive_exact_go_all_data events [] (n * 4 - buffered.length) hdata
      (by simp only [List.length_nil, Nat.zero_add]; omega)]
    show some (payloadWords (buffered ++ ([] ++ (events.map RecvEvent.dataBytes).flatten)) n) =
      some (beWords payload)
    rw [List.nil_append, hsplit, payloadWords_eq_beWords n payload hlen]
  · rw [if_neg hcase]
    have hflat : (events.map RecvEvent.dataBytes).flatten = [] :=
      List.eq_nil_of_length_eq_zero (by omega)
    rw [hflat, List.append_nil] at hsplit
    show some (payloadWords buffered n) = some (beWords payload)
    rw [hsplit, payloadWords_eq_beWords n payload hlen]

/-- C8 witness: an 8-byte payload split as one pre-buffered byte plus chunks
of 2 and 5 bytes decodes to the two big-endian counts `[5, 256]`. -/
theorem c8_reassembly_independent_witness :
    ((readPayload [0] ⟨true, [.data 0 [], .data 0 [5, 0], .data 0 [1, 0]]⟩ (2 * 4)).1.map
        fun bytes => payloadWords bytes 2)
      = some (beWords [0, 0, 0, 5, 0, 0, 1, 0]) :=
  c8_reassembly_independent 2 [0, 0, 0, 5, 0, 0, 1, 0] [0]
    [.data 0 [], .data 0 [5, 0], .data 0 [1, 0]]
    (by decide) (by decide) (by decide)

/-! ## C6: bin-edge geometry -/

/-- C6 (amended): for every decoded frame whose `bin_width` and `bin_offset`
are nonnegative (all header fields being 32-bit integers), the computed edge
vector has exactly `bin_count + 1` entries and
`edge[i] = (bin_offset + i * bin_width) * clock_period` for every
`i ≤ bin_count`, with `clock_period = (1.5625 / 6) * 10^-9`. -/
theorem c6_bin_edges (binSize : ℕ) (binWidth binOffset : ℤ)
    (hw0 : 0 ≤ binWidth) (hw1 : binWidth < 2 ^ 31)
    (ho0 : 0 ≤ binOffset) (ho1 : binOffset < 2 ^ 31)
    (hn : binSize < 2 ^ 31) :
    (calculate_bin_edges binSize binWidth binOffset).length = binSize + 1 ∧
    ∀ i ≤ binSize, (calculate_bin_edges binSize binWidth binOffset).getD i 0 =
      ((binOffset + (i : ℤ) * binWidth : ℤ) : ℚ) * TPX3_TDC_CLOCK_PERIOD_SEC := by
  constructor
  · simp [calculate_bin_edges]
  · intro i hi
    unfold calculate_bin_edges
    rw [List.getD_eq_getElem?_getD, List.getElem?_map, List.getElem?_range (by omega)]
    simp only [Option.map_some', Option.getD_some]
    have hoff : sizeT binOffset = binOffset.toNat := by
      unfold sizeT
      rw [Int.emod_eq_of_lt ho0 (by norm_num; omega)]
    have hwid : sizeT binWidth = binWidth.toNat := by
      unfold sizeT
      rw [Int.emod_eq_of_lt hw0 (by norm_num; omega)]
    have hbound : binOffset.toNat + i * binWidth.toNat < U64 := by
      have h1 : binOffset.toNat < 2 ^ 31 := by omega
      have h2 : binWidth.toNat < 2 ^ 31 := by omega
      have h3 : i < 2 ^ 31 := by omega
      have h4 : i * binWidth.toNat < 2 ^ 31 * 2 ^ 31 := Nat.mul_lt_mul'' h3 h2
      unfold U64
      omega
    rw [hoff, hwid, Nat.mod_eq_of_lt hbound]
    have hcast : ((binOffset.toNat + i * binWidth.toNat : ℕ) : ℚ) =
        ((binOffset + (i : ℤ) * binWidth : ℤ) : ℚ) := by
      have e1 : ((binOffset.toNat : ℕ) : ℚ) = ((binOffset : ℤ) : ℚ) := by
        rw [← Int.cast_natCast, Int.toNat_of_nonneg ho0]
      have e2 : ((binWidth.toNat : ℕ) : ℚ) = ((binWidth : ℤ) : ℚ) := by
        rw [← Int.cast_natCast, Int.toNat_of_nonneg hw0]
      push_cast
      rw [e1, e2]
    rw [hcast]

/-- C6 witness: the spec's scenario `bin_count = 4, bin_width = 10,
bin_offset = 0` gives five edges `(0 + 10 i) * clock_period`. -/
theorem c6_bin_edges_witness :
    (calculate_bin_edges 4 10 0).length = 4 + 1 ∧
    ∀ i ≤ 4, (calculate_bin_edges 4 10 0).getD i 0 =
      ((0 + (i : ℤ) * 10 : ℤ) : ℚ) * TPX3_TDC_CLOCK_PERIOD_SEC :=
  c6_bin_edges 4 10 0 (by decide) (by decide) (by decide) (by decide) (by decide)

/-- C6 counterexample to the claim as stated: a validly decoded frame may
carry a negative `bin_width`; the C++ computes `i * bin_width` in `size_t`
arithmetic, so for `bin_count = 1, bin_width = -1, bin_offset = 0` the edge at
index 1 is `(2^64 - 1) * clock_period` (a huge positive number), not the
claimed `(bin_offset + 1 * bin_width) * clock_period = -clock_period`. -/
theorem c6_negative_width_counterexample :
    (calculate_bin_edges 1 (-1) 0).getD 1 0 ≠
      ((0 + (1 : ℤ) * (-1) : ℤ) : ℚ) * TPX3_TDC_CLOCK_PERIOD_SEC := by
  have hlist : calculate_bin_edges 1 (-1) 0 =
      [0, ((18446744073709551615 : ℕ) : ℚ) * TPX3_TDC_CLOCK_PERIOD_SEC] := by
    unfold calculate_bin_edges sizeT U64
    norm_num [List.range_succ]
    left
    norm_num [show Int.toNat 18446744073709551615 = 18446744073709551615 from rfl]
  rw [hlist]
  have hc : 0 < TPX3_TDC_CLOCK_PERIOD_SEC := by norm_num [TPX3_TDC_CLOCK_PERIOD_SEC]
  simp only [List.getD_cons_succ, List.getD_cons_zero]
  intro heq
  norm_num at heq
  nlinarith [hc]

/-! ## C7: the persisted file layout -/

lemma joinWithNewlines_cons_ne (s : String) (rest : List String) (h : rest ≠ []) :
    joinWithNewlines (s :: rest) = s ++ "\n" ++ joinWithNewlines rest := by
  match rest, h with
  | x :: xs, _ => rfl

/-- The loop's appended rows followed by a final line agree with the
newline-separated view of the same lines. -/
lemma writeRows_append_last (rows : List String) (tail : String) :
    writeRows (rows.map fun r => r ++ "\n") ++ tail = joinWithNewlines (rows ++ [tail]) := by
  induction rows with
  | nil =>
      show "" ++ tail = tail
      simp
  | cons r rest ih =>
      have hcons : writeRows ((r :: rest).map fun x => x ++ "\n") =
          (r ++ "\n") ++ writeRows (rest.map fun x => x ++ "\n") := rfl
      rw [hcons, List.cons_append,
        joinWithNewlines_cons_ne _ _ (by simp), ← ih, String.append_assoc]

/-- Indexed form of `writeRows_append_last`, matching the
`save_histogram_to_file` loop. -/
lemma writeRows_spec (n : ℕ) (row : ℕ → String) (tail : String) :
    writeRows ((List.range n).map fun i => row i ++ "\n") ++ tail =
      joinWithNewlines ((List.range n).map row ++ [tail]) := by
  have h := writeRows_append_last ((List.range n).map row) tail
  rw [List.map_map] at h
  exact h

/-- C7 (amended): the persisted file content is a pure function of the running
sum's bin count, bin edges and bin values (byte-identical output for
byte-identical state), laid out as three header lines (the second stating the
bin count), then `bin_count` lines of `edge \t value`, then a final line with
only the last edge — where the `double` bin *edges* are rendered in scientific
notation with 9 fractional digits and the `uint64_t` bin *values* are rendered
as plain decimal integers. -/
theorem c7_file_layout (h1 h2 : SumHist)
    (hbs : h1.binSize = h2.binSize) (he : h1.binEdges = h2.binEdges)
    (hv : h1.binValues64 = h2.binValues64) :
    save_histogram_to_file h1 =
      spec_file_layout h1.binSize (fun i => fmtSci9 (h1.binEdges.getD i 0))
        (fun i => natToString (h1.binValues64.getD i 0)) ∧
    save_histogram_to_file h1 = save_histogram_to_file h2 := by
  have heq : h1 = h2 := by
    cases h1
    cases h2
    simp_all
  subst heq
  refine ⟨?_, rfl⟩
  unfold save_histogram_to_file spec_file_layout
  rw [show ("# Time of Flight Histogram Data\n" : String) =
      "# Time of Flight Histogram Data" ++ "\n" by decide]
  rw [show ("#\n" : String) = "#" ++ "\n" by decide]
  simp only [List.cons_append, List.nil_append, List.append_assoc]
  rw [joinWithNewlines_cons_ne _ _ (by simp), joinWithNewlines_cons_ne _ _ (by simp),
    joinWithNewlines_cons_ne _ _ (by simp)]
  rw [← writeRows_spec h1.binSize
    (fun i => fmtSci9 (h1.binEdges.getD i 0) ++ "\t" ++ natToString (h1.binValues64.getD i 0))
    (fmtSci9 (h1.binEdges.getD h1.binSize 0))]
  simp [String.append_assoc]
  rw [show ("\n#\n" : String) = "\n" ++ "#\n" by decide, String.append_assoc]

/-- C7 witness: a concrete 1-bin running sum instantiating the layout and
purity statement. -/
theorem c7_file_layout_witness :
    save_histogram_to_file ⟨1, [0, 0], [5]⟩ =
      spec_file_layout (⟨1, [0, 0], [5]⟩ : SumHist).binSize
        (fun i => fmtSci9 ((⟨1, [0, 0], [5]⟩ : SumHist).binEdges.getD i 0))
        (fun i => natToString ((⟨1, [0, 0], [5]⟩ : SumHist).binValues64.getD i 0)) ∧
    save_histogram_to_file ⟨1, [0, 0], [5]⟩ = save_histogram_to_file ⟨1, [0, 0], [5]⟩ :=
  c7_file_layout ⟨1, [0, 0], [5]⟩ ⟨1, [0, 0], [5]⟩ rfl rfl rfl

/-- C7 counterexample to the claim as stated: the claim renders *all* numeric
values in scientific notation with 9 fractional digits, but the `uint64_t`
bin values are written by plain integer `operator<<` (stream manipulators
only affect floating-point output).  For the 1-bin running sum with edges
`[0, 0]` and value `5`, the actual file holds the line `0.000000000e+00\t5`,
not `0.000000000e+00\t5.000000000e+00`. -/
theorem c7_value_notation_counterexample :
    save_histogram_to_file ⟨1, [0, 0], [5]⟩ ≠
      spec_file_layout (⟨1, [0, 0], [5]⟩ : SumHist).binSize
        (fun i => fmtSci9 ((⟨1, [0, 0], [5]⟩ : SumHist).binEdges.getD i 0))
        (fun i => fmtSci9 (((⟨1, [0, 0], [5]⟩ : SumHist).binValues64.getD i 0 : ℚ))) := by
  decide

end Tpx3
